import Mathlib

/-!
Shallow embedding of the `bukudb` package of the robuku repository
(`src/bukudb`): a bookmark store over a buku SQLite database, with a
cached record count, CRUD and tag operations, delete-with-renumbering,
and a partitioned bulk loader.

Modelling conventions:
* Go strings are modelled by Lean `String`; `strings.Split`/`strings.Join`
  with the one-byte separator `","` are modelled at the character-list
  level (`splitChars`/`joinChars`) — for a single-byte ASCII separator a
  byte-level split and a character-level split agree, because in UTF-8 a
  `,` byte never occurs inside a multi-byte character.  Likewise
  `len(s)` and `s[1:len(s)-1]` are modelled on the character list; they
  agree with Go's byte view whenever the first and last characters are
  ASCII, which is the case in all wrapped-comma tag strings.
* The SQLite table is a finite map from id to row, modelled as an
  association list.  `INSERT` fails when the primary key or the UNIQUE
  `URL` column collides, `UPDATE ... SET id` fails on a primary-key
  collision, other statements succeed; this models exactly the
  constraints of the schema documented in the source
  (`id INTEGER PRIMARY KEY, URL TEXT NOT NULL UNIQUE, ...`).
* Go `uint16` values are `Nat` reduced modulo 2^16 at the conversions
  the source performs (`uint16Mod`).
* `sort.Slice` with comparator `less i j` is an unstable sort; it is
  modelled by insertion sort with the reflexive closure of the
  comparator.  All stated results are independent of how elements that
  the comparator cannot distinguish are ordered (multisets, lengths,
  or lists whose keys are pairwise distinct), except where a theorem
  explicitly fixes this deterministic refinement.
* Concurrency: every store operation runs under the store mutex, so the
  sequential semantics below is the observable semantics.  Inside the
  loader the workers only insert rows keyed by their (distinct) ids
  into the shared map, so the final map does not depend on the
  interleaving; the loader is modelled by the equivalent sequential
  fold over the partitions.
-/

namespace Robuku

/-- Model of Go `strings.Split(s, sep)` for a one-character separator,
on character lists; `strings.Split("", sep) = [""]`. -/
def splitChars (sep : Char) : List Char → List (List Char)
  | [] => [[]]
  | c :: cs =>
    if c = sep then [] :: splitChars sep cs
    else
      match splitChars sep cs with
      | [] => [[c]]
      | h :: t => (c :: h) :: t

/-- Model of Go `strings.Join(l, sep)` for a one-character separator,
on character lists. -/
def joinChars (sep : Char) : List (List Char) → List Char
  | [] => []
  | [x] => x
  | x :: xs => x ++ sep :: joinChars sep xs

/-- Go `strings.Split(s, ",")` on Lean strings. -/
def goSplit (s : String) (sep : Char) : List String :=
  (splitChars sep s.data).map String.mk

/-- Go `strings.Join(l, ",")` on Lean strings. -/
def goJoin (l : List String) (sep : Char) : String :=
  ⟨joinChars sep (l.map String.data)⟩

/-- Go `uint16(n)` conversion. -/
def uint16Mod (n : Nat) : Nat := n % 65536

/-- MaxBookmarks defines the maximum number of bookmarks that can be
stored (source constant `MaxBookmarks = 1000`). -/
def MaxBookmarks : Nat := 1000

/-- One row of the `bookmarks` table, with the columns the store reads
and writes (`URL`, `metadata`, `tags`, `desc`, `flags`). -/
structure Row where
  url : String
  metadata : String
  tags : String
  desc : String
  flags : Nat
deriving Repr, DecidableEq

/-- Bookmark represents a single bookmark entry (source `Bookmark`);
`ID` is a Go `uint16`. -/
structure Bookmark where
  ID : Nat
  URL : String
  Title : String
  Tags : List String
  Comment : String
deriving Repr, DecidableEq

/-- Classes of errors the store surfaces: range-check failures
(`... out of range ...`), the capacity check
(`maximum number of bookmarks ... reached`), and wrapped storage/SQL
errors (`failed to ...`). -/
inductive DbError where
  | outOfRange
  | capacityExceeded
  | storageError
deriving Repr, DecidableEq

/-- The `bookmarks` table as a finite map from id to row. -/
abbrev Table := List (Nat × Row)

/-- Model of `SELECT ... WHERE id = ?` via `QueryRow` (first matching
row, if any). -/
def Table.findRow (t : Table) (id : Nat) : Option Row :=
  (t.find? (fun p => p.1 == id)).map Prod.snd

/-- Model of `INSERT INTO bookmarks ...`: fails iff the primary key
`id` or the UNIQUE `URL` column collides with an existing row. -/
def Table.insertRow (t : Table) (id : Nat) (r : Row) : Except Unit Table :=
  if t.any (fun p => p.1 == id || p.2.url == r.url) then .error ()
  else .ok (t ++ [(id, r)])

/-- Model of `DELETE FROM bookmarks WHERE id = ?` (never fails). -/
def Table.deleteRow (t : Table) (id : Nat) : Table :=
  t.filter (fun p => p.1 != id)

/-- Model of `UPDATE bookmarks SET id = ? WHERE id = ?`: fails iff a
matched row would be renamed onto a primary key held by another row. -/
def Table.updateId (t : Table) (newId oldId : Nat) : Except Unit Table :=
  if t.any (fun p => p.1 == oldId) && newId != oldId && t.any (fun p => p.1 == newId)
  then .error ()
  else .ok (t.map (fun p => if p.1 == oldId then (newId, p.2) else p))

/-- The closed set of column names `updateField` is called with. -/
inductive Field where
  | url
  | metadata
  | tags
  | desc
deriving Repr, DecidableEq

/-- Assignment of one column of a row. -/
def Row.setField (r : Row) : Field → String → Row
  | .url, v => { r with url := v }
  | .metadata, v => { r with metadata := v }
  | .tags, v => { r with tags := v }
  | .desc, v => { r with desc := v }

/-- Model of `UPDATE bookmarks SET <field> = ? WHERE id = ?`: fails iff
the UNIQUE `URL` column is set to a value held by a different row. -/
def Table.updateField (t : Table) (id : Nat) (f : Field) (v : String) : Except Unit Table :=
  if f == Field.url && t.any (fun p => p.1 != id && p.2.url == v) then .error ()
  else .ok (t.map (fun p => if p.1 == id then (p.1, p.2.setField f v) else p))

/-- BukuDB represents a connection to the buku SQLite database: the
table behind the connection and the cached in-memory count `len`. -/
structure BukuDB where
  table : Table
  len : Nat
deriving Repr, DecidableEq

/-- Len returns the number of bookmarks in db (the cached count). -/
def BukuDB.Len (db : BukuDB) : Nat := db.len

/-- Tag decoding performed by `Get`: unless the stored column is
exactly `","`, split on `","` and filter out empty entries. -/
def decodeGetTags (s : String) : List String :=
  if s ≠ "," then (goSplit s ',').filter (fun t => t ≠ "") else []

/-- Tag decoding performed by `processBookmarkRange`: when the stored
column has at least two bytes, strip the first and last byte and split
on `","` (no filtering of empty entries); otherwise leave tags empty. -/
def decodeRangeTags (s : String) : List String :=
  if 2 ≤ s.data.length then (splitChars ',' ((s.data.drop 1).dropLast)).map String.mk
  else []

/-- Row-to-Bookmark decoding used by `Get`. -/
def getRowToBookmark (id : Nat) (r : Row) : Bookmark :=
  ⟨id, r.url, r.metadata, decodeGetTags r.tags, r.desc⟩

/-- Row-to-Bookmark decoding used by the bulk loader. -/
def rangeRowToBookmark (id : Nat) (r : Row) : Bookmark :=
  ⟨id, r.url, r.metadata, decodeRangeTags r.tags, r.desc⟩

/-- Row written by `Add`: note the tags column is
`strings.Join(bookmark.Tags, ",")`, with no wrapping delimiters. -/
def bookmarkToRow (b : Bookmark) : Row :=
  ⟨b.URL, b.Title, goJoin b.Tags ',', b.Comment, 0⟩

/-- Get returns a bookmark by ID (source `Get`). -/
def BukuDB.Get (db : BukuDB) (id : Nat) : Except DbError Bookmark :=
  if id < 1 ∨ db.len < id then .error .outOfRange
  else
    match db.table.findRow id with
    | none => .error .storageError
    | some r => .ok (getRowToBookmark id r)

/-- Add inserts a new bookmark into the database (source `Add`): the
caller-supplied ID is overwritten with `uint16(len+1)`, the capacity
check runs first, and on success `len` becomes the new ID. -/
def BukuDB.Add (db : BukuDB) (b : Bookmark) : Except DbError BukuDB :=
  let newId := uint16Mod (db.len + 1)
  if MaxBookmarks < newId then .error .capacityExceeded
  else
    match db.table.insertRow newId (bookmarkToRow b) with
    | .error _ => .error .storageError
    | .ok t => .ok ⟨t, newId⟩

/-- updateField updates a specific field of the row with the given ID
(source `updateField`), after the same range check as `Get`. -/
def BukuDB.updateField (db : BukuDB) (id : Nat) (f : Field) (v : String) :
    Except DbError BukuDB :=
  if id < 1 ∨ db.len < id then .error .outOfRange
  else
    match db.table.updateField id f v with
    | .error _ => .error .storageError
    | .ok t => .ok ⟨t, db.len⟩

/-- UpdateTitle updates the title (column `metadata`). -/
def BukuDB.UpdateTitle (db : BukuDB) (id : Nat) (v : String) : Except DbError BukuDB :=
  db.updateField id .metadata v

/-- UpdateURL updates the URL (column `URL`). -/
def BukuDB.UpdateURL (db : BukuDB) (id : Nat) (v : String) : Except DbError BukuDB :=
  db.updateField id .url v

/-- UpdateComment updates the comment (column `desc`). -/
def BukuDB.UpdateComment (db : BukuDB) (id : Nat) (v : String) : Except DbError BukuDB :=
  db.updateField id .desc v

/-- Model of Go `strings.ToLower` (character-wise lowering; it agrees
with Go on ASCII, which is all the tag comparisons here exercise). -/
def toLowerGo (s : String) : String := ⟨s.data.map Char.toLower⟩

/-- Go `a < b` on strings: byte-wise lexicographic order, which equals
code-point lexicographic order on the character list (UTF-8 preserves
order). -/
def strLt (a b : String) : Prop := a.data < b.data

instance : DecidableRel strLt :=
  fun a b => inferInstanceAs (Decidable (a.data < b.data))

/-- Comparator of the tag sort in `AddTags`:
`strings.ToLower(tags[i]) < strings.ToLower(tags[j])`, taken up to its
reflexive closure for the insertion-sort model of `sort.Slice`. -/
def tagLe (a b : String) : Prop := ¬ strLt (toLowerGo b) (toLowerGo a)

instance : DecidableRel tagLe :=
  fun a b => inferInstanceAs (Decidable (¬ strLt (toLowerGo b) (toLowerGo a)))

/-- Deterministic model of the `sort.Slice` call in `AddTags`. -/
def sortTags (l : List String) : List String :=
  List.insertionSort tagLe l

/-- AddTags adds tags to the bookmark with the given ID (source
`AddTags`): tags already present (exact string match) are dropped, the
rest are appended, the result is sorted case-insensitively and written
back wrapped in commas. -/
def BukuDB.AddTags (db : BukuDB) (id : Nat) (tags : List String) :
    Except DbError BukuDB := do
  let b ← db.Get id
  let fresh := tags.filter (fun t => !(b.Tags.contains t))
  let merged := sortTags (b.Tags ++ fresh)
  db.updateField id .tags ("," ++ goJoin merged ',' ++ ",")

/-- RemoveTags removes the listed tags (exact string match) from the
bookmark with the given ID and writes the remainder back wrapped in
commas (source `RemoveTags`). -/
def BukuDB.RemoveTags (db : BukuDB) (id : Nat) (tags : List String) :
    Except DbError BukuDB := do
  let b ← db.Get id
  let kept := b.Tags.filter (fun t => !(tags.contains t))
  db.updateField id .tags ("," ++ goJoin kept ',' ++ ",")

/-- ClearTags writes the tags column as `","` (source `ClearTags`). -/
def BukuDB.ClearTags (db : BukuDB) (id : Nat) : Except DbError BukuDB :=
  db.updateField id .tags (",")

/-- The renumbering loop of `Remove`:
`for i := index+1; i < len; i++ { UPDATE ... SET id = i WHERE id = i+1 }`. -/
def renumberFrom (t : Table) (i stop : Nat) : Except Unit Table :=
  if _h : i < stop then
    match t.updateId i (i + 1) with
    | .error e => .error e
    | .ok t2 => renumberFrom t2 (i + 1) stop
  else .ok t
termination_by stop - i

/-- Remove removes a bookmark from the database (source `Remove`):
range check on `index = int(id - 1)` (a `uint16` subtraction), then the
`DELETE`, then the renumbering loop, then `len` is decremented. -/
def BukuDB.Remove (db : BukuDB) (id : Nat) : Except DbError BukuDB :=
  let index := uint16Mod (id + 65535)
  if id < 1 ∨ db.len ≤ index then .error .outOfRange
  else
    match renumberFrom (db.table.deleteRow id) (index + 1) db.len with
    | .error _ => .error .storageError
    | .ok t2 => .ok ⟨t2, db.len - 1⟩

/-- Per-worker count of the bulk loader:
`entriesPerWorker = (maxID + numWorkers - 1) / numWorkers`. -/
def entriesPerWorker (maxID numWorkers : Nat) : Nat :=
  (maxID + numWorkers - 1) / numWorkers

/-- Start of worker `i`'s id partition (`start := i*entriesPerWorker + 1`). -/
def partStart (i per : Nat) : Nat := i * per + 1

/-- Clamped end of worker `i`'s id partition
(`end := (i+1)*entriesPerWorker`, clamped to `maxID`). -/
def partEnd (i per maxID : Nat) : Nat := min ((i + 1) * per) maxID

/-- Model of `SELECT ... WHERE id BETWEEN ? AND ?`. -/
def Table.selectRange (t : Table) (a b : Nat) : List (Nat × Row) :=
  t.filter (fun p => a ≤ p.1 && p.1 ≤ b)

/-- Insertion of one decoded row into the shared `bookmarksMap`,
keyed by `b.ID`. -/
def mapInsert (m : List Bookmark) (b : Bookmark) : List Bookmark :=
  if m.any (fun x => x.ID == b.ID) then m.map (fun x => if x.ID == b.ID then b else x)
  else m ++ [b]

/-- processBookmarkRange loads the rows of one id range into the
shared map (source `processBookmarkRange`). -/
def processBookmarkRange (t : Table) (a b : Nat) (m : List Bookmark) : List Bookmark :=
  (t.selectRange a b).foldl (fun acc p => mapInsert acc (rangeRowToBookmark p.1 p.2)) m

/-- Comparator of the final sort of `loadBookmarks`
(`bookmarks[i].ID < bookmarks[j].ID`), up to its reflexive closure for
the insertion-sort model of `sort.Slice`. -/
def idLe (a b : Bookmark) : Prop := a.ID ≤ b.ID

instance : DecidableRel idLe :=
  fun a b => inferInstanceAs (Decidable (a.ID ≤ b.ID))

/-- Deterministic model of the final `sort.Slice` of `loadBookmarks`. -/
def sortByID (l : List Bookmark) : List Bookmark :=
  List.insertionSort idLe l

/-- loadBookmarks loads all bookmarks up to `maxID` (source
`loadBookmarks`): the id space is split into `numWorkers` clamped
partitions, each partition's rows are put into one map keyed by id,
and the map's values are returned sorted ascending by ID.  The workers
run concurrently in the source, but each only inserts rows of its own
partition into the map under the map mutex, so the resulting map — and
hence the sorted output — equals this sequential fold. -/
def loadBookmarks (t : Table) (maxID numWorkers : Nat) : Except DbError (List Bookmark) :=
  let per := entriesPerWorker maxID numWorkers
  let m := (List.range numWorkers).foldl
    (fun acc i => processBookmarkRange t (partStart i per) (partEnd i per maxID) acc) []
  .ok (sortByID m)

/-- GetAll returns all bookmarks in db (source `GetAll`); the worker
count is `runtime.NumCPU()` in the source and is a parameter here. -/
def BukuDB.GetAll (db : BukuDB) (numWorkers : Nat) : Except DbError (List Bookmark) :=
  loadBookmarks db.table db.len numWorkers

/-- A table whose rows are `rs` at the contiguous ids `1..rs.length`. -/
def canon (rs : List Row) : Table := (List.range' 1 rs.length).zip rs

/-- A store over `canon rs` with the matching cached count. -/
def mkDb (rs : List Row) : BukuDB := ⟨canon rs, rs.length⟩

/-- The store invariant: the persisted ids are exactly `1..len` and
the cached count is within capacity (as `NewBukuDB` guarantees, since
it caps the count it seeds at `MaxBookmarks`). -/
def Valid (db : BukuDB) : Prop :=
  db.table.map Prod.fst = List.range' 1 db.len ∧ db.len ≤ MaxBookmarks

/-- One mutating call of the sequences claim C1 quantifies over; the
argument of `Remove` is a Go `uint16`. -/
inductive Call where
  | add (b : Bookmark)
  | remove (id : Fin 65536)

/-- Effect of one call on the store: on success the new store, on
error the store is unchanged. -/
def step (db : BukuDB) : Call → BukuDB
  | .add b =>
    match db.Add b with
    | .ok db2 => db2
    | .error _ => db
  | .remove id =>
    match db.Remove id.val with
    | .ok db2 => db2
    | .error _ => db

/-- Effect of a sequence of calls on the store. -/
def run (db : BukuDB) (calls : List Call) : BukuDB := calls.foldl step db

end Robuku

deriving instance DecidableEq for Except

namespace Robuku

theorem canon_length (rs : List Row) : (canon rs).length = rs.length := by
  simp [canon]

theorem canon_map_fst (rs : List Row) : (canon rs).map Prod.fst = List.range' 1 rs.length :=
  List.map_fst_zip _ _ (by simp)

theorem valid_mkDb (rs : List Row) (h : rs.length ≤ MaxBookmarks) : Valid (mkDb rs) :=
  ⟨canon_map_fst rs, h⟩

theorem valid_eq_mkDb (db : BukuDB) (h : Valid db) : db = mkDb (db.table.map Prod.snd) := by
  obtain ⟨h1, h2⟩ := h
  have hlen : db.table.length = db.len := by simpa using congrArg List.length h1
  cases db with
  | mk table len =>
  simp only at h1 hlen
  simp only [mkDb, canon, List.length_map, hlen, ← h1, BukuDB.mk.injEq, and_true]
  rw [List.zip_map']
  simp

theorem canon_split (rs : List Row) (j : Nat) (h : j ≤ rs.length) :
    canon rs = (List.range' 1 j).zip (rs.take j)
      ++ (List.range' (1 + j) (rs.length - j)).zip (rs.drop j) := by
  rw [canon, ← List.zip_append (by simp [h]), List.range'_append_1, List.take_append_drop,
    Nat.sub_add_cancel h]

theorem findRow_zip_range' (s : Nat) (l : List Row) (k : Nat) (h1 : s ≤ k)
    (h2 : k < s + l.length) :
    Table.findRow ((List.range' s l.length).zip l) k = some (l.get ⟨k - s, by omega⟩) := by
  induction l generalizing s with
  | nil => simp at h2; omega
  | cons r tl ih =>
    simp only [List.length_cons, List.range'_succ, List.zip_cons_cons]
    by_cases hk : s = k
    · subst hk
      simp [Table.findRow, List.find?_cons]
    · have hs : s + 1 ≤ k := by omega
      have := ih (s + 1) hs (by simp only [List.length_cons] at h2; omega)
      simp only [Table.findRow, List.find?_cons] at this ⊢
      have hbeq : (s == k) = false := by simpa using hk
      simp only [hbeq]
      rw [this]
      congr 1
      have : k - s = (k - (s + 1)) + 1 := by omega
      simp [this]

theorem findRow_canon (rs : List Row) (k : Nat) (h1 : 1 ≤ k) (h2 : k ≤ rs.length) :
    Table.findRow (canon rs) k = some (rs.get ⟨k - 1, by omega⟩) := by
  rw [canon]
  exact findRow_zip_range' 1 rs k h1 (by omega)

theorem get_canon (rs : List Row) (k : Nat) (h1 : 1 ≤ k) (h2 : k ≤ rs.length) :
    (mkDb rs).Get k = .ok (getRowToBookmark k (rs.get ⟨k - 1, by omega⟩)) := by
  rw [BukuDB.Get]
  have hrange : ¬ (k < 1 ∨ (mkDb rs).len < k) := by
    simp only [mkDb]
    omega
  rw [if_neg hrange]
  simp only [mkDb]
  rw [findRow_canon rs k h1 h2]

theorem canon_append_singleton (rs : List Row) (r : Row) :
    canon (rs ++ [r]) = canon rs ++ [(rs.length + 1, r)] := by
  rw [canon, canon, List.length_append, List.length_singleton, List.range'_1_concat,
    List.zip_append (by simp)]
  simp [Nat.add_comm]

theorem add_canon (rs : List Row) (b : Bookmark) (hlen : rs.length + 1 ≤ MaxBookmarks)
    (hurl : ∀ r ∈ rs, r.url ≠ b.URL) :
    (mkDb rs).Add b = .ok (mkDb (rs ++ [bookmarkToRow b])) := by
  rw [BukuDB.Add]
  have h1000 : rs.length + 1 ≤ 1000 := hlen
  have hmod : uint16Mod ((mkDb rs).len + 1) = rs.length + 1 := by
    simp only [mkDb, uint16Mod]
    omega
  simp only [hmod]
  rw [if_neg (by show ¬ (1000 < rs.length + 1); omega)]
  have hins : Table.insertRow (mkDb rs).table (rs.length + 1) (bookmarkToRow b)
      = .ok (canon rs ++ [(rs.length + 1, bookmarkToRow b)]) := by
    rw [Table.insertRow, if_neg]
    · rfl
    · simp only [List.any_eq_true, not_exists]
      rintro ⟨i, r⟩ ⟨hmem, hp⟩
      simp only [Bool.or_eq_true, beq_iff_eq] at hp
      have hi : i ∈ (canon rs).map Prod.fst := List.mem_map_of_mem Prod.fst hmem
      rw [canon_map_fst] at hi
      have hi2 : 1 ≤ i ∧ i < 1 + rs.length := by
        simpa [List.mem_range'_1] using hi
      have hr : r ∈ rs :=
        (List.of_mem_zip (show (i, r) ∈ (List.range' 1 rs.length).zip rs from hmem)).2
      rcases hp with hp | hp
      · omega
      · exact hurl r hr (by simpa [bookmarkToRow] using hp)
  simp only [mkDb] at hins ⊢
  rw [hins, ← canon_append_singleton]
  simp [mkDb]

theorem mem_zip_range'_fst {s n : Nat} {l : List Row} {p : Nat × Row}
    (h : p ∈ (List.range' s n).zip l) : s ≤ p.1 ∧ p.1 < s + n := by
  have := (List.of_mem_zip (show (p.1, p.2) ∈ (List.range' s n).zip l from by simpa using h)).1
  simpa [List.mem_range'_1] using this

theorem renumberFrom_shift (l : List Row) (A : Table) (i : Nat)
    (hA : ∀ p ∈ A, p.1 < i) :
    renumberFrom (A ++ (List.range' (i + 1) l.length).zip l) i (i + l.length)
      = .ok (A ++ (List.range' i l.length).zip l) := by
  induction l generalizing A i with
  | nil =>
    rw [renumberFrom]
    simp
  | cons r tl ih =>
    rw [renumberFrom, dif_pos (by simp : i < i + (r :: tl).length)]
    have hT : A ++ (List.range' (i + 1) (r :: tl).length).zip (r :: tl)
        = A ++ (i + 1, r) :: (List.range' (i + 2) tl.length).zip tl := by
      simp [List.range'_succ, Nat.add_assoc]
    rw [hT]
    have hcond : ((A ++ (i + 1, r) :: (List.range' (i + 2) tl.length).zip tl).any
        (fun p => p.1 == i)) = false := by
      rw [List.any_eq_false]
      intro p hp
      simp only [List.mem_append, List.mem_cons] at hp
      rcases hp with hp | hp | hp
      · have := hA p hp
        simp only [beq_iff_eq]
        omega
      · subst hp
        simp
      · have := (mem_zip_range'_fst hp).1
        simp only [beq_iff_eq]
        omega
    have hmapA : List.map (fun p => if p.1 == i + 1 then (i, p.2) else p) A = A := by
      conv_rhs => rw [← List.map_id A]
      apply List.map_congr_left
      intro p hp
      have := hA p hp
      simp only [id_eq]
      rw [if_neg (by simp only [beq_iff_eq]; omega)]
    have hmapZ : List.map (fun p => if p.1 == i + 1 then (i, p.2) else p)
        ((List.range' (i + 2) tl.length).zip tl)
        = (List.range' (i + 2) tl.length).zip tl := by
      conv_rhs => rw [← List.map_id ((List.range' (i + 2) tl.length).zip tl)]
      apply List.map_congr_left
      intro p hp
      have := (mem_zip_range'_fst hp).1
      simp only [id_eq]
      rw [if_neg (by simp only [beq_iff_eq]; omega)]
    have hupd : Table.updateId (A ++ (i + 1, r) :: (List.range' (i + 2) tl.length).zip tl)
        i (i + 1)
        = .ok (A ++ (i, r) :: (List.range' (i + 2) tl.length).zip tl) := by
      rw [Table.updateId]
      rw [hcond]
      simp only [Bool.and_false, Bool.false_eq_true, if_false, List.map_append, List.map_cons,
        hmapA, hmapZ, beq_self_eq_true, if_pos]
    rw [hupd]
    have hstep : A ++ (i, r) :: (List.range' (i + 2) tl.length).zip tl
        = (A ++ [(i, r)]) ++ (List.range' (i + 1 + 1) tl.length).zip tl := by
      simp [List.append_assoc]
    have hstop : i + (r :: tl).length = (i + 1) + tl.length := by
      simp only [List.length_cons]
      omega
    simp only [hstep, hstop]
    rw [ih (A ++ [(i, r)]) (i + 1) (by
      intro p hp
      simp only [List.mem_append, List.mem_singleton] at hp
      rcases hp with hp | hp
      · have := hA p hp; omega
      · subst hp; simp)]
    simp [List.append_assoc, List.range'_succ]

theorem deleteRow_canon (rs : List Row) (k : Nat) (h1 : 1 ≤ k) (h2 : k ≤ rs.length) :
    Table.deleteRow (canon rs) k
      = (List.range' 1 (k - 1)).zip (rs.take (k - 1))
        ++ (List.range' (k + 1) (rs.length - k)).zip (rs.drop k) := by
  have hk1 : k - 1 ≤ rs.length := by omega
  have hsplit := canon_split rs (k - 1) hk1
  have hdrop : rs.drop (k - 1) = rs.get ⟨k - 1, by omega⟩ :: rs.drop k := by
    have hkk : k - 1 + 1 = k := by omega
    rw [List.drop_eq_get_cons (show k - 1 < rs.length by omega)]
    simp only [hkk]
  have hzip2 : (List.range' (1 + (k - 1)) (rs.length - (k - 1))).zip (rs.drop (k - 1))
      = (k, rs.get ⟨k - 1, by omega⟩) :: (List.range' (k + 1) (rs.length - k)).zip (rs.drop k) := by
    rw [hdrop]
    have hn : rs.length - (k - 1) = (rs.length - k) + 1 := by omega
    have hs : 1 + (k - 1) = k := by omega
    rw [hn, hs, List.range'_succ, List.zip_cons_cons]
  rw [Table.deleteRow, hsplit, hzip2, List.filter_append]
  congr 1
  · rw [List.filter_eq_self]
    intro p hp
    have := (mem_zip_range'_fst hp).2
    simp only [bne_iff_ne, ne_eq]
    omega
  · rw [List.filter_cons]
    simp only [beq_self_eq_true, bne_self_eq_false, Bool.false_eq_true, if_false]
    rw [List.filter_eq_self]
    intro p hp
    have := (mem_zip_range'_fst hp).1
    simp only [bne_iff_ne, ne_eq]
    omega

theorem canon_eraseIdx (rs : List Row) (k : Nat) (h1 : 1 ≤ k) (h2 : k ≤ rs.length) :
    canon (rs.eraseIdx (k - 1))
      = (List.range' 1 (k - 1)).zip (rs.take (k - 1))
        ++ (List.range' k (rs.length - k)).zip (rs.drop k) := by
  have herase : rs.eraseIdx (k - 1) = rs.take (k - 1) ++ rs.drop k := by
    rw [List.eraseIdx_eq_take_drop_succ]
    congr 1
    congr 1
    omega
  rw [canon, herase]
  have hlen : (rs.take (k - 1) ++ rs.drop k).length = (rs.length - k) + (k - 1) := by
    simp only [List.length_append, List.length_take, List.length_drop]
    omega
  rw [hlen, ← List.range'_append_1 1 (k - 1) (rs.length - k),
    List.zip_append (by simp; omega), show 1 + (k - 1) = k by omega]

theorem remove_canon (rs : List Row) (k : Nat) (h1 : 1 ≤ k) (h2 : k ≤ rs.length)
    (h3 : k ≤ 65535) :
    (mkDb rs).Remove k = .ok (mkDb (rs.eraseIdx (k - 1))) := by
  rw [BukuDB.Remove]
  have hindex : uint16Mod (k + 65535) = k - 1 := by
    rw [uint16Mod]
    omega
  simp only [hindex, mkDb]
  rw [if_neg (by simp only [not_or]; constructor <;> omega)]
  have hdel := deleteRow_canon rs k h1 h2
  simp only [mkDb] at hdel
  rw [hdel]
  have hstop : rs.length = (k - 1 + 1) + (rs.drop k).length := by
    simp only [List.length_drop]
    omega
  have hk : k - 1 + 1 = k := by omega
  have hshift := renumberFrom_shift (rs.drop k)
    ((List.range' 1 (k - 1)).zip (rs.take (k - 1))) k
    (by
      intro p hp
      have := (mem_zip_range'_fst hp).2
      omega)
  simp only [List.length_drop] at hshift
  rw [show k + (rs.length - k) = rs.length by omega] at hshift
  rw [show k - 1 + 1 = k by omega, hshift]
  simp only [mkDb, Except.ok.injEq, BukuDB.mk.injEq]
  constructor
  · rw [canon_eraseIdx rs k h1 h2]
  · rw [List.length_eraseIdx_of_lt (by omega)]

theorem add_ok_valid (db db2 : BukuDB) (b : Bookmark) (h : Valid db)
    (hok : db.Add b = .ok db2) : Valid db2 := by
  obtain ⟨h1, h2⟩ := h
  rw [BukuDB.Add] at hok
  by_cases hcap : MaxBookmarks < uint16Mod (db.len + 1)
  · rw [if_pos hcap] at hok
    exact absurd hok (by simp)
  · rw [if_neg hcap] at hok
    have hmod : uint16Mod (db.len + 1) = db.len + 1 := by
      have h1000 : db.len ≤ 1000 := h2
      rw [uint16Mod]
      omega
    rw [hmod] at hok hcap
    rw [Table.insertRow] at hok
    by_cases hdup : (db.table.any fun p => p.1 == db.len + 1 || p.2.url == (bookmarkToRow b).url) = true
    · rw [if_pos hdup] at hok
      exact absurd hok (by simp)
    · rw [if_neg hdup] at hok
      simp only [Except.ok.injEq] at hok
      subst hok
      constructor
      · simp only [List.map_append, h1, List.map_cons, List.map_nil]
        rw [List.range'_1_concat]
        simp [Nat.add_comm]
      · show db.len + 1 ≤ MaxBookmarks
        have hMB : MaxBookmarks = 1000 := rfl
        rw [hMB] at hcap ⊢
        omega

theorem remove_oob (db : BukuDB) (id : Nat)
    (h : id < 1 ∨ db.len ≤ uint16Mod (id + 65535)) :
    db.Remove id = .error .outOfRange := by
  rw [BukuDB.Remove, if_pos h]

theorem remove_ok_valid (db db2 : BukuDB) (id : Nat) (hid : id < 65536) (h : Valid db)
    (hok : db.Remove id = .ok db2) : Valid db2 := by
  have hdb := valid_eq_mkDb db h
  have hlen1000 : db.len ≤ 1000 := h.2
  have hlen : (db.table.map Prod.snd).length = db.len := by
    have := congrArg List.length h.1
    simpa using this
  by_cases hk : 1 ≤ id ∧ id ≤ db.len
  · have hrc := remove_canon (db.table.map Prod.snd) id hk.1 (by omega) (by omega)
    rw [← hdb] at hrc
    have hdb2 : db2 = mkDb ((db.table.map Prod.snd).eraseIdx (id - 1)) := by
      have := hrc.symm.trans hok
      simpa using this.symm
    rw [hdb2]
    apply valid_mkDb
    have hle : ((db.table.map Prod.snd).eraseIdx (id - 1)).length
        ≤ (db.table.map Prod.snd).length := List.length_eraseIdx_le _ _
    have hMB : MaxBookmarks = 1000 := rfl
    rw [hMB]
    omega
  · exfalso
    have herr : db.Remove id = .error .outOfRange := by
      refine remove_oob db id ?_
      push_neg at hk
      by_cases h0 : id = 0
      · left
        omega
      · right
        rw [uint16Mod]
        have h2 : db.len < id := hk (by omega)
        omega
    rw [herr] at hok
    exact absurd hok (by simp)

theorem step_valid (db : BukuDB) (c : Call) (h : Valid db) : Valid (step db c) := by
  cases c with
  | add b =>
    simp only [step]
    cases hA : db.Add b with
    | ok db2 => exact add_ok_valid db db2 b h hA
    | error e => exact h
  | remove id =>
    simp only [step]
    cases hR : db.Remove id.val with
    | ok db2 => exact remove_ok_valid db db2 id.val id.isLt h hR
    | error e => exact h

theorem run_valid (db : BukuDB) (calls : List Call) (h : Valid db) : Valid (run db calls) := by
  induction calls generalizing db with
  | nil => simpa [run] using h
  | cons c cs ih => exact ih (step db c) (step_valid db c h)

theorem mapInsert_append (acc : List Bookmark) (b : Bookmark)
    (h : ∀ x ∈ acc, x.ID ≠ b.ID) : mapInsert acc b = acc ++ [b] := by
  have hcond : (acc.any fun x => x.ID == b.ID) = false := by
    rw [List.any_eq_false]
    intro x hx
    simpa using h x hx
  rw [mapInsert, hcond]
  simp

theorem foldl_mapInsert (bs acc : List Bookmark)
    (h : ((acc ++ bs).map Bookmark.ID).Nodup) :
    bs.foldl mapInsert acc = acc ++ bs := by
  induction bs generalizing acc with
  | nil => simp
  | cons b tl ih =>
    rw [List.foldl_cons]
    have hb : ∀ x ∈ acc, x.ID ≠ b.ID := by
      intro x hx hcontra
      rw [List.map_append, List.nodup_append] at h
      exact h.2.2 (List.mem_map_of_mem Bookmark.ID hx)
        (by rw [hcontra]; exact List.mem_map_of_mem Bookmark.ID (List.mem_cons_self b tl))
    rw [mapInsert_append acc b hb]
    rw [ih (acc ++ [b]) (by simpa using h)]
    simp

theorem flatten_filter_cons {α : Type} (key : α → Nat) (a : α) (tl : List α) (is : List Nat)
    (hnodup : is.Nodup) (hmem : key a ∈ is) :
    List.Perm ((is.map (fun i => (a :: tl).filter (fun x => key x == i))).flatten)
      (a :: (is.map (fun i => tl.filter (fun x => key x == i))).flatten) := by
  induction is with
  | nil => simp at hmem
  | cons i0 restIs ih =>
    simp only [List.map_cons, List.flatten_cons]
    by_cases hkey : key a = i0
    · have hblock : (a :: tl).filter (fun x => key x == i0)
          = a :: tl.filter (fun x => key x == i0) := by
        rw [List.filter_cons, if_pos (by simp [hkey])]
      have hrest : restIs.map (fun i => (a :: tl).filter (fun x => key x == i))
          = restIs.map (fun i => tl.filter (fun x => key x == i)) := by
        apply List.map_congr_left
        intro i hi
        rw [List.filter_cons, if_neg]
        simp only [beq_iff_eq, hkey]
        have hi0 : i0 ∉ restIs := (List.nodup_cons.mp hnodup).1
        intro hcontra
        rw [hcontra] at hi0
        exact hi0 hi
      rw [hblock, hrest]
      simp
    · have hmem2 : key a ∈ restIs := by
        rcases List.mem_cons.mp hmem with h | h
        · exact absurd h hkey
        · exact h
      have hblock : (a :: tl).filter (fun x => key x == i0)
          = tl.filter (fun x => key x == i0) := by
        rw [List.filter_cons, if_neg (by simp [hkey])]
      rw [hblock]
      refine ((ih (List.nodup_cons.mp hnodup).2 hmem2).append_left _).trans ?_
      exact List.perm_middle

theorem flatten_filter_key {α : Type} (key : α → Nat) (W : Nat) (l : List α)
    (h : ∀ a ∈ l, key a < W) :
    List.Perm (((List.range W).map (fun i => l.filter (fun x => key x == i))).flatten) l := by
  induction l with
  | nil => simp
  | cons a tl ih =>
    have h1 := flatten_filter_cons key a tl (List.range W) (List.nodup_range W)
      (List.mem_range.mpr (h a (List.mem_cons_self a tl)))
    refine h1.trans ?_
    exact (ih (fun x hx => h x (List.mem_cons_of_mem a hx))).cons a

theorem entriesPerWorker_pos (N W : Nat) (hW : 1 ≤ W) (hN : 1 ≤ N) :
    1 ≤ entriesPerWorker N W := by
  rw [entriesPerWorker, Nat.le_div_iff_mul_le (by omega)]
  omega

theorem le_mul_entriesPerWorker (N W : Nat) (hW : 1 ≤ W) :
    N ≤ W * entriesPerWorker N W := by
  rw [entriesPerWorker]
  have hdm := Nat.div_add_mod (N + W - 1) W
  have hmlt : (N + W - 1) % W < W := Nat.mod_lt _ (by omega)
  omega

theorem partition_mem (N W id i : Nat) (hW : 1 ≤ W) (hid1 : 1 ≤ id) (hidN : id ≤ N)
    (hi : i < W) :
    (partStart i (entriesPerWorker N W) ≤ id ∧ id ≤ partEnd i (entriesPerWorker N W) N)
      ↔ (id - 1) / entriesPerWorker N W = i := by
  have hper1 : 1 ≤ entriesPerWorker N W := entriesPerWorker_pos N W hW (by omega)
  constructor
  · rintro ⟨hs, he⟩
    rw [partStart] at hs
    rw [partEnd] at he
    have he2 : id ≤ (i + 1) * entriesPerWorker N W := le_trans he (min_le_left _ _)
    have hlo : i ≤ (id - 1) / entriesPerWorker N W := by
      rw [Nat.le_div_iff_mul_le hper1]
      omega
    have hhi : (id - 1) / entriesPerWorker N W < i + 1 := by
      rw [Nat.div_lt_iff_lt_mul hper1]
      omega
    omega
  · intro hdiv
    have hlo : i * entriesPerWorker N W ≤ id - 1 := by
      rw [← Nat.le_div_iff_mul_le hper1, hdiv]
    have hhi : id - 1 < (i + 1) * entriesPerWorker N W := by
      rw [← Nat.div_lt_iff_lt_mul hper1, hdiv]
      omega
    constructor
    · rw [partStart]
      omega
    · rw [partEnd]
      apply le_min
      · omega
      · exact hidN

theorem key_lt_W (N W id : Nat) (hW : 1 ≤ W) (hid1 : 1 ≤ id) (hidN : id ≤ N) :
    (id - 1) / entriesPerWorker N W < W := by
  have hper1 : 1 ≤ entriesPerWorker N W := entriesPerWorker_pos N W hW (by omega)
  rw [Nat.div_lt_iff_lt_mul hper1]
  have hceil := le_mul_entriesPerWorker N W hW
  calc id - 1 < N := by omega
    _ ≤ W * entriesPerWorker N W := hceil

theorem selectRange_canon_block (rs : List Row) (W i : Nat) (hW : 1 ≤ W) (hi : i < W) :
    Table.selectRange (canon rs) (partStart i (entriesPerWorker rs.length W))
        (partEnd i (entriesPerWorker rs.length W) rs.length)
      = (canon rs).filter (fun q => (q.1 - 1) / entriesPerWorker rs.length W == i) := by
  rw [Table.selectRange]
  apply List.filter_congr
  intro q hq
  have hfst := mem_zip_range'_fst (show q ∈ (List.range' 1 rs.length).zip rs from hq)
  have hiff := partition_mem rs.length W q.1 i hW (by omega) (by omega) hi
  rw [Bool.eq_iff_iff]
  simp only [Bool.and_eq_true, decide_eq_true_eq, beq_iff_eq]
  exact hiff

def idLt (a b : Bookmark) : Prop := a.ID < b.ID

instance idLeTotal : IsTotal Bookmark idLe :=
  ⟨fun a b => Nat.le_total a.ID b.ID⟩

instance idLeTrans : IsTrans Bookmark idLe :=
  ⟨fun _ _ _ h1 h2 => Nat.le_trans h1 h2⟩

instance idLtAntisymm : IsAntisymm Bookmark idLt :=
  ⟨fun _ _ h1 h2 => absurd (Nat.lt_trans h1 h2) (Nat.lt_irrefl _)⟩

theorem foldl_process_blocks (rs : List Row) (W : Nat) (hW : 1 ≤ W) (is : List Nat)
    (his : ∀ i ∈ is, i < W) (acc : List Bookmark)
    (hnodup : ((acc ++ (is.map (fun i => (((canon rs).map (fun q => rangeRowToBookmark q.1 q.2)).filter
        (fun b => (b.ID - 1) / entriesPerWorker rs.length W == i)))).flatten).map Bookmark.ID).Nodup) :
    is.foldl (fun a i => processBookmarkRange (canon rs)
        (partStart i (entriesPerWorker rs.length W))
        (partEnd i (entriesPerWorker rs.length W) rs.length) a) acc
      = acc ++ (is.map (fun i => (((canon rs).map (fun q => rangeRowToBookmark q.1 q.2)).filter
          (fun b => (b.ID - 1) / entriesPerWorker rs.length W == i)))).flatten := by
  induction is generalizing acc with
  | nil => simp
  | cons i tl ih =>
    rw [List.foldl_cons]
    have hstep : processBookmarkRange (canon rs)
        (partStart i (entriesPerWorker rs.length W))
        (partEnd i (entriesPerWorker rs.length W) rs.length) acc
        = (((canon rs).map (fun q => rangeRowToBookmark q.1 q.2)).filter
            (fun b => (b.ID - 1) / entriesPerWorker rs.length W == i)).foldl mapInsert acc := by
      rw [processBookmarkRange, selectRange_canon_block rs W i hW (his i (List.mem_cons_self i tl))]
      rw [List.filter_map]
      rw [List.foldl_map]
      rfl
    rw [hstep]
    rw [foldl_mapInsert _ acc (by
      refine List.Nodup.sublist ?_ hnodup
      apply List.Sublist.map
      simp only [List.map_cons, List.flatten_cons, ← List.append_assoc]
      exact List.sublist_append_left _ _)]
    rw [ih (fun j hj => his j (List.mem_cons_of_mem i hj)) _ (by
      simp only [List.map_cons, List.flatten_cons, ← List.append_assoc] at hnodup
      exact hnodup)]
    simp [List.append_assoc]

theorem loadBookmarks_canon (rs : List Row) (W : Nat) (hW : 1 ≤ W) :
    loadBookmarks (canon rs) rs.length W
      = .ok ((canon rs).map (fun q => rangeRowToBookmark q.1 q.2)) := by
  rw [loadBookmarks]
  have hLids : ((canon rs).map (fun q => rangeRowToBookmark q.1 q.2)).map Bookmark.ID
      = List.range' 1 rs.length := by
    rw [List.map_map]
    have hcomp : (Bookmark.ID ∘ fun q : Nat × Row => rangeRowToBookmark q.1 q.2) = Prod.fst :=
      funext fun q => rfl
    rw [hcomp, canon_map_fst]
  have hnodupL : (((canon rs).map (fun q => rangeRowToBookmark q.1 q.2)).map Bookmark.ID).Nodup := by
    rw [hLids]
    exact List.nodup_range' 1 rs.length
  have hperm : List.Perm (((List.range W).map (fun i =>
      (((canon rs).map (fun q => rangeRowToBookmark q.1 q.2)).filter
        (fun b => (b.ID - 1) / entriesPerWorker rs.length W == i)))).flatten)
      ((canon rs).map (fun q => rangeRowToBookmark q.1 q.2)) := by
    apply flatten_filter_key
    intro b hb
    obtain ⟨q, hq, rfl⟩ := List.mem_map.mp hb
    have hfst := mem_zip_range'_fst (show q ∈ (List.range' 1 rs.length).zip rs from hq)
    exact key_lt_W rs.length W q.1 hW (by omega) (by omega)
  have hnodupFlat : ((((List.range W).map (fun i =>
      (((canon rs).map (fun q => rangeRowToBookmark q.1 q.2)).filter
        (fun b => (b.ID - 1) / entriesPerWorker rs.length W == i)))).flatten).map Bookmark.ID).Nodup :=
    ((hperm.map Bookmark.ID).symm).nodup hnodupL
  rw [foldl_process_blocks rs W hW (List.range W) (fun i hi => List.mem_range.mp hi) []
    (by simpa using hnodupFlat)]
  simp only [List.nil_append]
  congr 1
  have hsortPerm : List.Perm (sortByID (((List.range W).map (fun i =>
      (((canon rs).map (fun q => rangeRowToBookmark q.1 q.2)).filter
        (fun b => (b.ID - 1) / entriesPerWorker rs.length W == i)))).flatten))
      ((canon rs).map (fun q => rangeRowToBookmark q.1 q.2)) := by
    rw [sortByID]
    exact (List.perm_insertionSort idLe _).trans hperm
  have hsorted1 : List.Sorted idLe (sortByID (((List.range W).map (fun i =>
      (((canon rs).map (fun q => rangeRowToBookmark q.1 q.2)).filter
        (fun b => (b.ID - 1) / entriesPerWorker rs.length W == i)))).flatten)) := by
    rw [sortByID]
    exact List.sorted_insertionSort idLe _
  have hsortedL : List.Pairwise idLt ((canon rs).map (fun q => rangeRowToBookmark q.1 q.2)) := by
    have h2 : List.Pairwise (fun a b : Nat => a < b) ((canon rs).map Prod.fst) := by
      rw [canon_map_fst]
      exact List.pairwise_lt_range' 1 rs.length
    have h3 : List.Pairwise (fun p q : Nat × Row => p.1 < q.1) (canon rs) :=
      List.pairwise_map.mp h2
    exact List.pairwise_map.mpr h3
  have hnodupSort : ((sortByID (((List.range W).map (fun i =>
      (((canon rs).map (fun q => rangeRowToBookmark q.1 q.2)).filter
        (fun b => (b.ID - 1) / entriesPerWorker rs.length W == i)))).flatten)).map Bookmark.ID).Nodup :=
    ((hsortPerm.map Bookmark.ID).symm).nodup hnodupL
  have hpairNe : List.Pairwise (fun a b : Bookmark => a.ID ≠ b.ID) (sortByID (((List.range W).map (fun i =>
      (((canon rs).map (fun q => rangeRowToBookmark q.1 q.2)).filter
        (fun b => (b.ID - 1) / entriesPerWorker rs.length W == i)))).flatten)) :=
    List.pairwise_map.mp hnodupSort
  have hsortedLt : List.Pairwise idLt (sortByID (((List.range W).map (fun i =>
      (((canon rs).map (fun q => rangeRowToBookmark q.1 q.2)).filter
        (fun b => (b.ID - 1) / entriesPerWorker rs.length W == i)))).flatten)) :=
    (hsorted1.and hpairNe).imp (fun h => Nat.lt_of_le_of_ne h.1 h.2)
  exact List.eq_of_perm_of_sorted hsortPerm hsortedLt hsortedL

theorem getAll_canon (rs : List Row) (W : Nat) (hW : 1 ≤ W) :
    (mkDb rs).GetAll W = .ok ((canon rs).map (fun q => rangeRowToBookmark q.1 q.2)) :=
  loadBookmarks_canon rs W hW

theorem splitChars_sepFree (sep : Char) (x : List Char) (hx : sep ∉ x) :
    splitChars sep x = [x] := by
  induction x with
  | nil => rfl
  | cons c cs ih =>
    rw [splitChars, if_neg (fun hc => hx (List.mem_cons.mpr (Or.inl hc.symm)))]
    rw [ih (fun hmem => hx (List.mem_cons_of_mem c hmem))]

theorem splitChars_append_sep (sep : Char) (x rest : List Char) (hx : sep ∉ x) :
    splitChars sep (x ++ sep :: rest) = x :: splitChars sep rest := by
  induction x with
  | nil =>
    rw [List.nil_append, splitChars, if_pos rfl]
  | cons c cs ih =>
    rw [List.cons_append, splitChars, if_neg (fun hc => hx (List.mem_cons.mpr (Or.inl hc.symm)))]
    rw [ih (fun hmem => hx (List.mem_cons_of_mem c hmem))]

theorem splitChars_joinChars (sep : Char) (ls : List (List Char))
    (h : ∀ x ∈ ls, x ≠ [] ∧ sep ∉ x) :
    (splitChars sep (joinChars sep ls)).filter (fun x => x ≠ []) = ls := by
  induction ls with
  | nil => rfl
  | cons x ls2 ih =>
    cases ls2 with
    | nil =>
      have hx := h x (List.mem_cons_self x [])
      rw [show joinChars sep [x] = x from rfl]
      rw [splitChars_sepFree sep x hx.2]
      rw [List.filter_cons, if_pos (by simpa using hx.1)]
      rfl
    | cons y ls3 =>
      have hx := h x (List.mem_cons_self x (y :: ls3))
      rw [show joinChars sep (x :: y :: ls3) = x ++ sep :: joinChars sep (y :: ls3) from rfl]
      rw [splitChars_append_sep sep x _ hx.2]
      rw [List.filter_cons, if_pos (by simpa using hx.1)]
      rw [ih (fun z hz => h z (List.mem_cons_of_mem x hz))]

theorem goJoin_ne_delim (tags : List String) (h : ∀ t ∈ tags, t ≠ "" ∧ ',' ∉ t.data) :
    goJoin tags ',' ≠ "," := by
  intro hcontra
  have hdata : joinChars ',' (tags.map String.data) = [','] := by
    have := congrArg String.data hcontra
    simpa [goJoin] using this
  match tags with
  | [] => simp [joinChars] at hdata
  | [x] =>
    have hx := h x (List.mem_cons_self x [])
    rw [show joinChars ',' ([x].map String.data) = x.data from rfl] at hdata
    exact hx.2 (hdata ▸ List.mem_cons_self ',' [])
  | x :: y :: tl =>
    have hx := h x (List.mem_cons_self x (y :: tl))
    rw [show joinChars ',' ((x :: y :: tl).map String.data)
        = x.data ++ ',' :: joinChars ',' ((y :: tl).map String.data) from rfl] at hdata
    match hxd : x.data with
    | [] =>
      exact hx.1 (by
        have : x = "" := by
          cases x with
          | mk d => simpa [String.ext_iff] using hxd
        exact this)
    | c :: cs =>
      rw [hxd, List.cons_append] at hdata
      have htl : cs ++ ',' :: joinChars ',' ((y :: tl).map String.data) = [] := by
        have := congrArg List.tail hdata
        simpa using this
      simp at htl

theorem decodeGetTags_goJoin (tags : List String)
    (h : ∀ t ∈ tags, t ≠ "" ∧ ',' ∉ t.data) :
    decodeGetTags (goJoin tags ',') = tags := by
  rw [decodeGetTags, if_pos (goJoin_ne_delim tags h)]
  rw [goSplit]
  rw [show (goJoin tags ',').data = joinChars ',' (tags.map String.data) from rfl]
  rw [List.filter_map]
  have hfc : (splitChars ',' (joinChars ',' (tags.map String.data))).filter
      ((fun t : String => t ≠ "") ∘ String.mk)
      = (splitChars ',' (joinChars ',' (tags.map String.data))).filter (fun x => x ≠ []) := by
    apply List.filter_congr
    intro x _
    simp only [Function.comp_apply, ne_eq, decide_not]
    congr 1
    apply decide_eq_decide.mpr
    constructor
    · intro hmk
      cases x with
      | nil => rfl
      | cons c cs => simp [String.ext_iff] at hmk
    · intro hx
      subst hx
      rfl
  rw [hfc]
  rw [splitChars_joinChars ',' (tags.map String.data) (by
    intro x hx
    obtain ⟨t, ht, rfl⟩ := List.mem_map.mp hx
    refine ⟨?_, (h t ht).2⟩
    intro hcontra
    exact (h t ht).1 (by
      cases t with
      | mk d => simpa [String.ext_iff] using hcontra))]
  rw [List.map_map]
  have : (String.mk ∘ String.data) = id := funext fun t => rfl
  rw [this, List.map_id]

theorem mem_canon_of_mem (rs : List Row) (r : Row) (hr : r ∈ rs) :
    ∃ i, (i, r) ∈ canon rs := by
  obtain ⟨k, hk, rfl⟩ := List.mem_iff_getElem.mp hr
  refine ⟨1 + k, ?_⟩
  have hkzip : k < ((List.range' 1 rs.length).zip rs).length := by
    simp [hk]
  have hval : ((List.range' 1 rs.length).zip rs)[k] = (1 + k, rs[k]) := by
    rw [List.getElem_zip]
    congr 1
    simp
  have hmem : ((List.range' 1 rs.length).zip rs)[k] ∈ canon rs := by
    rw [canon]
    exact List.getElem_mem hkzip
  rw [hval] at hmem
  exact hmem

/-- C5 counterexample: adding a bookmark whose URL is already stored is
an error (the INSERT fails on the UNIQUE URL column and `Add` wraps and
returns that failure), not a silent no-op. -/
theorem add_duplicate_url_counterexample :
    (mkDb [⟨"https://www.a.com", "", ",", "", 0⟩]).Add ⟨0, "https://www.a.com", "t", [], "c"⟩
      = .error .storageError := by decide

/-- C5 amended: for a within-capacity store, `Add` of a bookmark whose
URL equals the URL of an existing row returns the wrapped storage
error; no row is inserted and no new store state is produced, so `Len`
is unchanged. -/
theorem add_duplicate_url_amended (rs : List Row) (b : Bookmark)
    (hlen : rs.length + 1 ≤ MaxBookmarks) (hdup : ∃ r ∈ rs, r.url = b.URL) :
    (mkDb rs).Add b = .error .storageError := by
  have h1000 : rs.length + 1 ≤ 1000 := hlen
  have hmod : uint16Mod ((mkDb rs).len + 1) = rs.length + 1 := by
    simp only [mkDb, uint16Mod]
    omega
  simp only [BukuDB.Add, hmod]
  rw [if_neg (by show ¬ (1000 < rs.length + 1); omega)]
  obtain ⟨r, hr, hurl⟩ := hdup
  obtain ⟨i, hmem⟩ := mem_canon_of_mem rs r hr
  rw [Table.insertRow, if_pos]
  exact List.any_eq_true.mpr ⟨(i, r), hmem, by simp [hurl, bookmarkToRow]⟩

theorem add_duplicate_url_amended_witness :
    (([⟨"https://www.a.com", "", ",", "", 0⟩] : List Row).length + 1 ≤ MaxBookmarks
      ∧ ∃ r ∈ ([⟨"https://www.a.com", "", ",", "", 0⟩] : List Row),
          r.url = (⟨0, "https://www.a.com", "t", [], "c"⟩ : Bookmark).URL)
    ∧ (mkDb [⟨"https://www.a.com", "", ",", "", 0⟩]).Add ⟨0, "https://www.a.com", "t", [], "c"⟩
        = .error .storageError :=
  ⟨⟨by decide, ⟨⟨"https://www.a.com", "", ",", "", 0⟩, by decide, by decide⟩⟩,
    add_duplicate_url_amended [⟨"https://www.a.com", "", ",", "", 0⟩]
      ⟨0, "https://www.a.com", "t", [], "c"⟩ (by decide)
      ⟨⟨"https://www.a.com", "", ",", "", 0⟩, by decide, by decide⟩⟩

/-- C8: Get range rejection on a store with rows at ids `1..N`:
`Get 0` and `Get (N+1)` fail with the out-of-range error, `Get N`
succeeds, and in general `Get id` fails with the out-of-range error
exactly when `id` is outside `[1, N]`. -/
theorem get_range_rejection (rs : List Row) (hN : 1 ≤ rs.length) :
    (mkDb rs).Get 0 = .error .outOfRange
    ∧ (mkDb rs).Get (rs.length + 1) = .error .outOfRange
    ∧ (∃ b, (mkDb rs).Get rs.length = .ok b)
    ∧ ∀ id, ((mkDb rs).Get id = .error .outOfRange ↔ (id < 1 ∨ rs.length < id)) := by
  refine ⟨?_, ?_, ?_, ?_⟩
  · rw [BukuDB.Get, if_pos (Or.inl (by omega))]
  · rw [BukuDB.Get, if_pos (Or.inr (by simp only [mkDb]; omega))]
  · exact ⟨_, get_canon rs rs.length hN le_rfl⟩
  · intro id
    constructor
    · intro herr
      by_contra hcontra
      push_neg at hcontra
      rw [get_canon rs id hcontra.1 (by omega)] at herr
      exact absurd herr (by simp)
    · intro hout
      rw [BukuDB.Get, if_pos (by simpa only [mkDb] using hout)]

theorem get_range_rejection_witness :
    1 ≤ ([⟨"https://www.a.com", "", ",", "", 0⟩, ⟨"https://www.b.com", "", ",", "", 0⟩] : List Row).length
    ∧ (mkDb [⟨"https://www.a.com", "", ",", "", 0⟩, ⟨"https://www.b.com", "", ",", "", 0⟩]).Get 0
        = .error .outOfRange
    ∧ (mkDb [⟨"https://www.a.com", "", ",", "", 0⟩, ⟨"https://www.b.com", "", ",", "", 0⟩]).Get 3
        = .error .outOfRange
    ∧ (∃ b, (mkDb [⟨"https://www.a.com", "", ",", "", 0⟩, ⟨"https://www.b.com", "", ",", "", 0⟩]).Get 2
        = .ok b) :=
  ⟨by decide,
    (get_range_rejection [⟨"https://www.a.com", "", ",", "", 0⟩, ⟨"https://www.b.com", "", ",", "", 0⟩]
      (by decide)).1,
    (get_range_rejection [⟨"https://www.a.com", "", ",", "", 0⟩, ⟨"https://www.b.com", "", ",", "", 0⟩]
      (by decide)).2.1,
    (get_range_rejection [⟨"https://www.a.com", "", ",", "", 0⟩, ⟨"https://www.b.com", "", ",", "", 0⟩]
      (by decide)).2.2.1⟩

/-- C9: the capacity check of `Add`: with the cached count below the
`uint16` wrap, `Add` fails with the capacity error precisely off the
`N + 1 > MaxBookmarks` test before touching storage (so no record is
created and the count is unchanged), and any successful `Add` sets
the count to `N + 1`. -/
theorem add_capacity_limit (db : BukuDB) (b : Bookmark) (hlen : db.len < 65535) :
    (MaxBookmarks < db.len + 1 → db.Add b = .error .capacityExceeded)
    ∧ (∀ db2, db.Add b = .ok db2 → db2.len = db.len + 1) := by
  have hmod : uint16Mod (db.len + 1) = db.len + 1 := by
    rw [uint16Mod]
    omega
  constructor
  · intro hcap
    simp only [BukuDB.Add, hmod]
    rw [if_pos hcap]
  · intro db2 hok
    simp only [BukuDB.Add, hmod] at hok
    by_cases hcap : MaxBookmarks < db.len + 1
    · rw [if_pos hcap] at hok
      exact absurd hok (by simp)
    · rw [if_neg hcap] at hok
      rw [Table.insertRow] at hok
      by_cases hdup : (db.table.any fun p => p.1 == db.len + 1 || p.2.url == (bookmarkToRow b).url) = true
      · rw [if_pos hdup] at hok
        exact absurd hok (by simp)
      · rw [if_neg hdup] at hok
        simp only [Except.ok.injEq] at hok
        rw [← hok]

theorem add_capacity_limit_witness :
    ((⟨[], 1000⟩ : BukuDB).len < 65535 ∧ MaxBookmarks < (⟨[], 1000⟩ : BukuDB).len + 1
      ∧ (mkDb []).len < 65535)
    ∧ (⟨[], 1000⟩ : BukuDB).Add ⟨0, "u", "", [], ""⟩ = .error .capacityExceeded
    ∧ (⟨[(1, bookmarkToRow ⟨0, "u", "", [], ""⟩)], 1⟩ : BukuDB).len = (mkDb []).len + 1 :=
  ⟨⟨by decide, by decide, by decide⟩,
    (add_capacity_limit ⟨[], 1000⟩ ⟨0, "u", "", [], ""⟩ (by decide)).1 (by decide),
    (add_capacity_limit (mkDb []) ⟨0, "u", "", [], ""⟩ (by decide)).2
      ⟨[(1, bookmarkToRow ⟨0, "u", "", [], ""⟩)], 1⟩ (by decide)⟩

/-- C3 (code bug evaluation): `Add` writes the tags column as the bare
comma join with no wrapping delimiters (`"new,tag2"`, and the empty
tag list as `""` instead of `","`), contradicting the wrapped-comma
buku format the package documents and the bulk loader assumes — the
loader then decodes such a row by stripping its first and last
character, corrupting the tags to `["ew", "tag"]`; and `AddTags` whose
merge result is empty writes `",,"` rather than `","`. -/
theorem add_tags_format_eval :
    (∃ db2, (mkDb []).Add ⟨0, "https://www.new.com", "x", ["new", "tag2"], ""⟩ = .ok db2
      ∧ db2.table.findRow 1 = some ⟨"https://www.new.com", "x", "new,tag2", "", 0⟩)
    ∧ bookmarkToRow ⟨5, "u", "x", [], ""⟩ = ⟨"u", "x", "", "", 0⟩
    ∧ decodeRangeTags ("new,tag2") = ["ew", "tag"]
    ∧ (∃ db2, (mkDb [⟨"https://www.b.com", "t", ",", "", 0⟩]).AddTags 1 [] = .ok db2
        ∧ db2.table.findRow 1 = some ⟨"https://www.b.com", "t", ",,", "", 0⟩) :=
  ⟨⟨⟨[(1, ⟨"https://www.new.com", "x", "new,tag2", "", 0⟩)], 1⟩, by decide, by decide⟩,
    by decide, by decide,
    ⟨⟨[(1, ⟨"https://www.b.com", "t", ",,", "", 0⟩)], 1⟩, by decide, by decide⟩⟩

/-- C4 counterexample: `AddTags 1 ["a", "a", "A"]` on a bookmark with
no existing tags leaves three tags, not the case-insensitively
deduplicated singleton the claim states: duplicates inside the
argument list are never removed (the filter only drops tags already
present in the stored set, by exact string comparison), so the
resulting tag list has length 3 regardless of how the unstable sort
orders the three entries. -/
theorem addTags_dedup_counterexample :
    Except.map (fun b => b.Tags.length)
        (((mkDb [⟨"https://www.b.com", "t", ",", "", 0⟩]).AddTags 1 ["a", "a", "A"]).bind
          (fun d => d.Get 1))
      = .ok 3 := by decide

/-- C4 amended: `AddTags 1 ["a", "a", "A"]` on a bookmark with no
existing tags yields the three-element tag list with entries
`a, a, A` — every argument tag is stored verbatim, because
deduplication happens only against the stored set and is
case-sensitive — sorted case-insensitively; the entries are stated as
a permutation of `["a", "a", "A"]` together with sortedness under the
tag comparator, which is independent of how the unstable `sort.Slice`
orders the three case-insensitively equal entries.  Calling `AddTags`
a second time with the same argument list returns the store
unchanged — every argument tag is then an exact member of the stored
set, so the merge is idempotent. -/
theorem addTags_merge_amended :
    ∃ db2 b, (mkDb [⟨"https://www.b.com", "t", ",", "", 0⟩]).AddTags 1 ["a", "a", "A"] = .ok db2
      ∧ db2.Get 1 = .ok b
      ∧ List.Perm b.Tags ["a", "a", "A"]
      ∧ List.Sorted tagLe b.Tags
      ∧ b.Tags.length = 3
      ∧ db2.AddTags 1 ["a", "a", "A"] = .ok db2 := by
  refine ⟨⟨[(1, ⟨"https://www.b.com", "t", ",a,a,A,", "", 0⟩)], 1⟩,
    ⟨1, "https://www.b.com", "t", ["a", "a", "A"], ""⟩, ?_, ?_, ?_, ?_, ?_, ?_⟩
  · decide
  · decide
  · decide
  · decide
  · decide
  · decide

/-- C10 counterexample: for a bookmark whose stored tags column is the
one-character string `","`, the bulk loader's decoder leaves the tags
empty (its `len >= 2` guard fails, so nothing is decoded), identical
to `Get`; the claim's asserted `[""]` value for this input is wrong. -/
theorem get_getAll_decode_counterexample :
    (mkDb [⟨"u", "t", ",", "c", 0⟩]).GetAll 1 = .ok [⟨1, "u", "t", [], "c"⟩]
    ∧ decodeRangeTags (",") = [] := by
  constructor
  · decide
  · decide

/-- C10 amended: `Get` and the bulk loader do decode the tags column
by different rules — `Get` splits on `","` and filters empties while
the loader strips the first and last character and does not filter —
but they agree on the stored value `","`; they differ on the
reachable stored value `",,"` (written by `AddTags`/`RemoveTags` when
the resulting tag set is empty), where `Get` yields no tags and
`GetAll` yields the single empty tag `""`, so the two are not always
equal. -/
theorem get_getAll_decode_amended :
    (mkDb [⟨"u", "t", ",,", "c", 0⟩]).Get 1 = .ok ⟨1, "u", "t", [], "c"⟩
    ∧ (mkDb [⟨"u", "t", ",,", "c", 0⟩]).GetAll 1 = .ok [⟨1, "u", "t", [""], "c"⟩]
    ∧ decodeGetTags (",,") = []
    ∧ decodeRangeTags (",,") = [""]
    ∧ decodeGetTags (",") = decodeRangeTags (",") := by
  refine ⟨by decide, by decide, by decide, by decide, by decide⟩

/-- C6 counterexample: a bookmark whose single tag contains a comma
does not round-trip through `Add` and `Get`: the stored column is the
bare join `"a,b"`, which `Get` re-splits into two tags. -/
theorem add_get_roundtrip_counterexample :
    ((mkDb []).Add ⟨0, "u", "t", ["a,b"], "c"⟩).bind (fun d => d.Get 1)
      = .ok ⟨1, "u", "t", ["a", "b"], "c"⟩
    ∧ (["a", "b"] : List String) ≠ ["a,b"] := by
  constructor
  · decide
  · decide

/-- C6 amended: after a successful `Add b` on a store with count `N`
(URL not already present, within capacity), `Get (N + 1)` returns a
bookmark equal to `b` in its url, title and comment, with id `N + 1`
(the caller-supplied id is ignored), and equal in its tags whenever
every tag of `b` is nonempty and comma-free — the wrapped-comma format
is not used by `Add`, so tags that are empty or contain a comma are
not recovered verbatim. -/
theorem add_get_roundtrip_amended (rs : List Row) (b : Bookmark)
    (hlen : rs.length + 1 ≤ MaxBookmarks)
    (hurl : ∀ r ∈ rs, r.url ≠ b.URL)
    (htags : ∀ t ∈ b.Tags, t ≠ "" ∧ ',' ∉ t.data) :
    ∃ db2, (mkDb rs).Add b = .ok db2
      ∧ db2.Get (rs.length + 1) = .ok ⟨rs.length + 1, b.URL, b.Title, b.Tags, b.Comment⟩ := by
  refine ⟨_, add_canon rs b hlen hurl, ?_⟩
  have hget := get_canon (rs ++ [bookmarkToRow b]) (rs.length + 1) (by omega) (by simp)
  rw [hget]
  have hrow : (rs ++ [bookmarkToRow b]).get ⟨rs.length + 1 - 1, by simp⟩ = bookmarkToRow b := by
    simp
  rw [hrow]
  rw [show getRowToBookmark (rs.length + 1) (bookmarkToRow b)
      = ⟨rs.length + 1, b.URL, b.Title, decodeGetTags (goJoin b.Tags ','), b.Comment⟩ from rfl]
  rw [decodeGetTags_goJoin b.Tags htags]

theorem add_get_roundtrip_amended_witness :
    (([] : List Row).length + 1 ≤ MaxBookmarks
      ∧ (∀ r ∈ ([] : List Row), r.url ≠ "u")
      ∧ (∀ t ∈ (["x", "y"] : List String), t ≠ "" ∧ ',' ∉ t.data))
    ∧ ∃ db2, (mkDb []).Add ⟨0, "u", "t", ["x", "y"], "c"⟩ = .ok db2
        ∧ db2.Get (([] : List Row).length + 1) = .ok ⟨([] : List Row).length + 1, "u", "t", ["x", "y"], "c"⟩ :=
  ⟨⟨by decide, by decide, by decide⟩,
    add_get_roundtrip_amended [] ⟨0, "u", "t", ["x", "y"], "c"⟩ (by decide) (by decide) (by decide)⟩

/-- C1: starting from a store whose persisted ids are exactly
`{1, ..., N}` with cached count `N` (within the `MaxBookmarks` cap
that `NewBukuDB` enforces when it seeds the count), after any sequence
of `Add`/`Remove` calls — each failed call leaving the store unchanged
— the store is still valid: its persisted ids are exactly `1..Len()`
in order, and `GetAll` returns exactly the bookmarks with ids
`1..Len()`; since every prefix of a call sequence is itself a call
sequence, this holds after each call. -/
theorem contiguity_invariant (rs : List Row) (hlen : rs.length ≤ MaxBookmarks)
    (calls : List Call) :
    Valid (run (mkDb rs) calls)
    ∧ (run (mkDb rs) calls).table.map Prod.fst = List.range' 1 ((run (mkDb rs) calls).Len)
    ∧ ∀ W, 1 ≤ W → ∃ bs, (run (mkDb rs) calls).GetAll W = .ok bs
        ∧ bs.map Bookmark.ID = List.range' 1 ((run (mkDb rs) calls).Len) := by
  have hv : Valid (run (mkDb rs) calls) := run_valid (mkDb rs) calls (valid_mkDb rs hlen)
  refine ⟨hv, hv.1, ?_⟩
  intro W hW
  have hdb := valid_eq_mkDb _ hv
  have hlen2 : ((run (mkDb rs) calls).table.map Prod.snd).length = (run (mkDb rs) calls).len := by
    have := congrArg List.length hv.1
    simpa using this
  refine ⟨(canon ((run (mkDb rs) calls).table.map Prod.snd)).map
      (fun q => rangeRowToBookmark q.1 q.2), ?_, ?_⟩
  · conv_lhs => rw [hdb]
    exact getAll_canon _ W hW
  · rw [List.map_map]
    have hcomp : (Bookmark.ID ∘ fun q : Nat × Row => rangeRowToBookmark q.1 q.2) = Prod.fst :=
      funext fun q => rfl
    rw [hcomp, canon_map_fst, hlen2]
    rfl

theorem contiguity_invariant_witness :
    ([] : List Row).length ≤ MaxBookmarks
    ∧ Valid (run (mkDb []) [Call.add ⟨0, "u", "", [], ""⟩, Call.add ⟨0, "v", "", [], ""⟩,
        Call.remove 1])
    ∧ ∃ bs, (run (mkDb []) [Call.add ⟨0, "u", "", [], ""⟩, Call.add ⟨0, "v", "", [], ""⟩,
        Call.remove 1]).GetAll 1 = .ok bs
        ∧ bs.map Bookmark.ID = List.range' 1 ((run (mkDb []) [Call.add ⟨0, "u", "", [], ""⟩,
            Call.add ⟨0, "v", "", [], ""⟩, Call.remove 1]).Len) :=
  ⟨by decide,
    (contiguity_invariant [] (by decide) [Call.add ⟨0, "u", "", [], ""⟩,
      Call.add ⟨0, "v", "", [], ""⟩, Call.remove 1]).1,
    (contiguity_invariant [] (by decide) [Call.add ⟨0, "u", "", [], ""⟩,
      Call.add ⟨0, "v", "", [], ""⟩, Call.remove 1]).2.2 1 (by decide)⟩

/-- C2: on a store with rows at ids `1..N`, a successful `Remove id`
(`1 ≤ id ≤ N`, ids being `uint16` values) deletes row `id`, renumbers
every row `j` in `(id, N]` down to `j - 1` preserving its url, title,
tags and comment (the store becomes exactly the canonical store over
the row list with entry `id - 1` erased), leaves `Len = N - 1`, keeps
every bookmark below `id` unchanged under `Get`, and serves the old
bookmark `j + 1` at `Get j` (with only its id changed) for
`id ≤ j ≤ N - 1`. -/
theorem remove_renumbering (rs : List Row) (id : Nat) (h1 : 1 ≤ id) (h2 : id ≤ rs.length)
    (h3 : rs.length < 65536) :
    ∃ db2, (mkDb rs).Remove id = .ok db2
      ∧ db2.Len = rs.length - 1
      ∧ db2 = mkDb (rs.eraseIdx (id - 1))
      ∧ (∀ j, 1 ≤ j → j < id → db2.Get j = (mkDb rs).Get j)
      ∧ (∀ j, id ≤ j → j ≤ rs.length - 1 →
          ∃ b, (mkDb rs).Get (j + 1) = .ok b
            ∧ db2.Get j = .ok { b with ID := j }) := by
  have hel : (rs.eraseIdx (id - 1)).length = rs.length - 1 :=
    List.length_eraseIdx_of_lt (by omega)
  have hrc := remove_canon rs id h1 h2 (by omega)
  refine ⟨mkDb (rs.eraseIdx (id - 1)), hrc, ?_, rfl, ?_, ?_⟩
  · rw [BukuDB.Len, mkDb, hel]
  · intro j hj1 hj2
    have hj2e : j ≤ (rs.eraseIdx (id - 1)).length := by omega
    have hrow : (rs.eraseIdx (id - 1)).get ⟨j - 1, by omega⟩ = rs.get ⟨j - 1, by omega⟩ := by
      have ha := List.getElem?_eq_getElem (show j - 1 < (rs.eraseIdx (id - 1)).length by omega)
      have hb := List.getElem?_eq_getElem (show j - 1 < rs.length by omega)
      rw [List.getElem?_eraseIdx_of_lt rs (id - 1) (j - 1) (by omega), hb] at ha
      simpa using ha.symm
    rw [get_canon _ j hj1 hj2e, get_canon rs j hj1 (by omega), hrow]
  · intro j hjid hjlen
    have hj1 : 1 ≤ j := by omega
    have hj2e : j ≤ (rs.eraseIdx (id - 1)).length := by omega
    have hrow : (rs.eraseIdx (id - 1)).get ⟨j - 1, by omega⟩ = rs.get ⟨j, by omega⟩ := by
      have ha := List.getElem?_eq_getElem (show j - 1 < (rs.eraseIdx (id - 1)).length by omega)
      have hb := List.getElem?_eq_getElem (show j < rs.length by omega)
      rw [List.getElem?_eraseIdx_of_ge rs (id - 1) (j - 1) (by omega)] at ha
      rw [show j - 1 + 1 = j from by omega, hb] at ha
      simpa using ha.symm
    refine ⟨getRowToBookmark (j + 1) (rs.get ⟨j, by omega⟩),
      get_canon rs (j + 1) (by omega) (by omega), ?_⟩
    rw [get_canon _ j hj1 hj2e, hrow]
    rfl

theorem remove_renumbering_witness :
    (1 ≤ 2 ∧ 2 ≤ ([⟨"a", "", ",", "", 0⟩, ⟨"b", "", ",", "", 0⟩, ⟨"c", "", ",", "", 0⟩,
        ⟨"d", "", ",", "", 0⟩] : List Row).length
      ∧ ([⟨"a", "", ",", "", 0⟩, ⟨"b", "", ",", "", 0⟩, ⟨"c", "", ",", "", 0⟩,
        ⟨"d", "", ",", "", 0⟩] : List Row).length < 65536)
    ∧ ∃ db2, (mkDb [⟨"a", "", ",", "", 0⟩, ⟨"b", "", ",", "", 0⟩, ⟨"c", "", ",", "", 0⟩,
        ⟨"d", "", ",", "", 0⟩]).Remove 2 = .ok db2
      ∧ db2.Len = ([⟨"a", "", ",", "", 0⟩, ⟨"b", "", ",", "", 0⟩, ⟨"c", "", ",", "", 0⟩,
          ⟨"d", "", ",", "", 0⟩] : List Row).length - 1
      ∧ db2 = mkDb (([⟨"a", "", ",", "", 0⟩, ⟨"b", "", ",", "", 0⟩, ⟨"c", "", ",", "", 0⟩,
          ⟨"d", "", ",", "", 0⟩] : List Row).eraseIdx (2 - 1))
      ∧ (∀ j, 1 ≤ j → j < 2 → db2.Get j = (mkDb [⟨"a", "", ",", "", 0⟩, ⟨"b", "", ",", "", 0⟩,
          ⟨"c", "", ",", "", 0⟩, ⟨"d", "", ",", "", 0⟩]).Get j)
      ∧ (∀ j, 2 ≤ j → j ≤ ([⟨"a", "", ",", "", 0⟩, ⟨"b", "", ",", "", 0⟩, ⟨"c", "", ",", "", 0⟩,
          ⟨"d", "", ",", "", 0⟩] : List Row).length - 1 →
          ∃ b, (mkDb [⟨"a", "", ",", "", 0⟩, ⟨"b", "", ",", "", 0⟩, ⟨"c", "", ",", "", 0⟩,
              ⟨"d", "", ",", "", 0⟩]).Get (j + 1) = .ok b
            ∧ db2.Get j = .ok { b with ID := j }) :=
  ⟨⟨by decide, by decide, by decide⟩,
    remove_renumbering [⟨"a", "", ",", "", 0⟩, ⟨"b", "", ",", "", 0⟩, ⟨"c", "", ",", "", 0⟩,
      ⟨"d", "", ",", "", 0⟩] 2 (by decide) (by decide) (by decide)⟩

/-- C7: with `W ≥ 1` workers and `perWorker = ceil(N / W)`, the
clamped partitions of the bulk loader exactly tile `[1, N]` — every id
in `[1, N]` lies in exactly one partition, also when `W` does not
divide `N` and when `W > N` — and on a store with rows at ids `1..N`,
`GetAll` returns exactly the `N` decoded bookmarks sorted ascending by
id, independently of the partitioning. -/
theorem getAll_partition_tiling_ordering (W : Nat) (hW : 1 ≤ W) :
    (∀ N id, 1 ≤ id → id ≤ N →
      ∃! i, i < W ∧ partStart i (entriesPerWorker N W) ≤ id
        ∧ id ≤ partEnd i (entriesPerWorker N W) N)
    ∧ (∀ rs : List Row,
        ∃ bs, (mkDb rs).GetAll W = .ok bs
          ∧ bs = (canon rs).map (fun q => rangeRowToBookmark q.1 q.2)
          ∧ bs.map Bookmark.ID = List.range' 1 ((mkDb rs).Len)) := by
  constructor
  · intro N id hid1 hidN
    refine ⟨(id - 1) / entriesPerWorker N W, ⟨key_lt_W N W id hW hid1 hidN,
      (partition_mem N W id ((id - 1) / entriesPerWorker N W) hW hid1 hidN
        (key_lt_W N W id hW hid1 hidN)).mpr rfl⟩, ?_⟩
    rintro i ⟨hi, hs, he⟩
    exact ((partition_mem N W id i hW hid1 hidN hi).mp ⟨hs, he⟩).symm
  · intro rs
    refine ⟨_, getAll_canon rs W hW, rfl, ?_⟩
    rw [List.map_map]
    have hcomp : (Bookmark.ID ∘ fun q : Nat × Row => rangeRowToBookmark q.1 q.2) = Prod.fst :=
      funext fun q => rfl
    rw [hcomp, canon_map_fst]
    rfl

theorem getAll_partition_tiling_ordering_witness :
    (1 ≤ 3)
    ∧ (∃! i, i < 3 ∧ partStart i (entriesPerWorker 7 3) ≤ 5
        ∧ 5 ≤ partEnd i (entriesPerWorker 7 3) 7)
    ∧ ∃ bs, (mkDb [⟨"a", "", ",", "", 0⟩, ⟨"b", "", ",", "", 0⟩, ⟨"c", "", ",", "", 0⟩,
        ⟨"d", "", ",", "", 0⟩, ⟨"e", "", ",", "", 0⟩, ⟨"f", "", ",", "", 0⟩,
        ⟨"g", "", ",", "", 0⟩]).GetAll 3 = .ok bs
      ∧ bs = (canon [⟨"a", "", ",", "", 0⟩, ⟨"b", "", ",", "", 0⟩, ⟨"c", "", ",", "", 0⟩,
          ⟨"d", "", ",", "", 0⟩, ⟨"e", "", ",", "", 0⟩, ⟨"f", "", ",", "", 0⟩,
          ⟨"g", "", ",", "", 0⟩]).map (fun q => rangeRowToBookmark q.1 q.2)
      ∧ bs.map Bookmark.ID = List.range' 1 ((mkDb [⟨"a", "", ",", "", 0⟩, ⟨"b", "", ",", "", 0⟩,
          ⟨"c", "", ",", "", 0⟩, ⟨"d", "", ",", "", 0⟩, ⟨"e", "", ",", "", 0⟩,
          ⟨"f", "", ",", "", 0⟩, ⟨"g", "", ",", "", 0⟩]).Len) :=
  ⟨by decide,
    (getAll_partition_tiling_ordering 3 (by decide)).1 7 5 (by decide) (by decide),
    (getAll_partition_tiling_ordering 3 (by decide)).2 [⟨"a", "", ",", "", 0⟩,
      ⟨"b", "", ",", "", 0⟩, ⟨"c", "", ",", "", 0⟩, ⟨"d", "", ",", "", 0⟩,
      ⟨"e", "", ",", "", 0⟩, ⟨"f", "", ",", "", 0⟩, ⟨"g", "", ",", "", 0⟩]⟩

end Robuku
